import Mathlib

/-!
Verification development for the `build_tmdb_cache.py` ingestion script.

The script is embedded shallowly:
* wall-clock time is modelled by the rationals;
* Python dicts appearing as JSON documents are modelled as association
  lists with first-match lookup;
* Python strings are modelled either by Lean strings or, where character
  arithmetic is needed, by their character lists;
* the network is modelled by oracles: an oracle `ℕ → Bool` telling whether
  `fetch_tmdb_data` returns a truthy record for a given movie id, and an
  oracle `ℕ → TmdbResp` giving the HTTP response to each successive
  attempt inside `fetch_tmdb_data` itself;
* the elapsed wall-clock time observed at the budget check of loop
  iteration `idx` in `main` is an oracle `ℕ → ℚ`.

Every definition mirrors the control flow of the corresponding Python
function; the few places where a Python construct has no direct Lean
counterpart (the early `return` inside a `for` loop, the unbounded retry
recursion) are noted in the corresponding doc comment.
-/

namespace TmdbCache

/-- `MAX_RUNTIME_SECS = 10 * 60` (source line 11). -/
def MAX_RUNTIME_SECS : ℕ := 10 * 60

/-- `RATE_LIMIT = 50` requests per second (source line 12). -/
def RATE_LIMIT : ℕ := 50

/-- `RATE_LIMIT_WINDOW = 1.0` seconds (source line 13). -/
def RATE_LIMIT_WINDOW : ℚ := 1

/-! ### `load_state` (source lines 19-28)

The checkpoint file `cache_state.txt` is abstracted by the outcome of
reading and JSON-parsing it: the file can be absent, unreadable or not
valid JSON (`IOError` / `ValueError`, both caught), valid JSON that is
not an object (in which case `data.get` on line 24 raises an uncaught
`AttributeError`), or a JSON object, of which only the two keys the
script ever consults are retained (each possibly absent). -/

/-- Observable content of the `cache_state.txt` checkpoint file. -/
inductive StateFileContent
  | absent
  | unreadable
  | jsonNonObject
  | jsonObject (last_id cached_count : Option ℕ)
deriving DecidableEq

/-- The dict returned by `load_state`, restricted to the keys the script
reads (`start_time`, also present in the fresh-state dict, is never read
back and is omitted). -/
structure LoadedState where
  last_id : Option ℕ
  cached_count : Option ℕ
deriving DecidableEq

/-- `load_state`: absent file or a caught `ValueError`/`IOError` fall
through to the fresh dict with `last_id = 0`, `cached_count = 0`; valid
JSON that is not an object raises `AttributeError` at the `data.get`
call inside the `try` block, which the `except (ValueError, IOError)`
clause does not catch. -/
def load_state : StateFileContent → Except String LoadedState
  | .absent => .ok ⟨some 0, some 0⟩
  | .unreadable => .ok ⟨some 0, some 0⟩
  | .jsonNonObject => .error "AttributeError"
  | .jsonObject li cc => .ok ⟨li, cc⟩

/-! ### `filter_movie_data` (source lines 91-104) -/

/-- Python `dict.get(k)`: value at the first matching key, else `None`. -/
def dict_get {α : Type} (d : List (String × α)) (k : String) : Option α :=
  (d.find? fun p => p.1 == k).map Prod.snd

/-- The ten cached fields, in the order the source lists them. -/
def movie_fields : List String :=
  ["id", "title", "original_title", "release_date", "status", "runtime",
   "original_language", "spoken_languages", "origin_country", "genres"]

/-- `filter_movie_data`: build a fresh dict holding exactly the ten
documented keys, each bound to `movie_data.get(key)`. -/
def filter_movie_data {α : Type} (movie_data : List (String × α)) :
    List (String × Option α) :=
  [("id", dict_get movie_data "id"),
   ("title", dict_get movie_data "title"),
   ("original_title", dict_get movie_data "original_title"),
   ("release_date", dict_get movie_data "release_date"),
   ("status", dict_get movie_data "status"),
   ("runtime", dict_get movie_data "runtime"),
   ("original_language", dict_get movie_data "original_language"),
   ("spoken_languages", dict_get movie_data "spoken_languages"),
   ("origin_country", dict_get movie_data "origin_country"),
   ("genres", dict_get movie_data "genres")]

/-! ### `save_movie_cache` path derivation (source lines 107-116)

Python strings are modelled by their character lists. -/

/-- Python `str.zfill(2)`: left-pad with `'0'` to width 2. -/
def zfill2 (s : List Char) : List Char :=
  if s.length < 2 then List.replicate (2 - s.length) '0' ++ s else s

/-- `movie_id[:2].zfill(2)` (source line 111). -/
def shard_dir (movie_id : List Char) : List Char :=
  zfill2 (movie_id.take 2)

/-- `str(movie_id)` for the (natural) id stored in the record. -/
def str_of (n : ℕ) : List Char := (Nat.repr n).data

/-- The path `docs/<shard>/<id>.json` written by `save_movie_cache`
(source lines 112-115). -/
def cache_path (movie_id : ℕ) : List Char :=
  "docs/".data ++ shard_dir (str_of movie_id) ++ "/".data ++
    str_of movie_id ++ ".json".data

/-! ### `handle_rate_limit_error` and `fetch_tmdb_data`
(source lines 53-61 and 64-88) -/

/-- Classification of one HTTP response inside `fetch_tmdb_data`. -/
inductive TmdbResp
  | ok
  | notFound
  | rateLimited
  | transportError
deriving DecidableEq

/-- The `for _ in range(3)` loop of `handle_rate_limit_error`, with the
iteration count as fuel.  The loop body is `print; sleep(wait_time);
wait_time *= 2; return True`: the `return True` ends the call on the
body's first execution, so iterations after the first (and the `return
False` after the loop) are reachable only with zero iterations.  The
result is the returned Boolean together with the list of sleeps
performed, in seconds. -/
def handle_rate_limit_loop : ℕ → ℕ → Bool × List ℕ
  | 0, _ => (false, [])
  | _ + 1, wait_time => (true, [wait_time])

/-- `handle_rate_limit_error()`: the loop runs with `range(3)` and the
initial `wait_time = 60`. -/
def handle_rate_limit_error : Bool × List ℕ :=
  handle_rate_limit_loop 3 60

/-- `fetch_tmdb_data`, with the HTTP responses to the successive attempts
for this movie id given by the oracle `resp`.  On a 429 the source calls
`handle_rate_limit_error()` and, when it answers `True`, retries by a
recursive call with no bound; `fuel` makes the model total, `none`
meaning the source is still inside the retry recursion after `fuel`
attempts.  A completed call yields `some (truthy, sleeps)`: whether a
record was returned, and the backoff sleeps performed in order. -/
def fetch_tmdb_data (resp : ℕ → TmdbResp) : ℕ → ℕ → Option (Bool × List ℕ)
  | 0, _ => none
  | fuel + 1, attempt =>
    match resp attempt with
    | .rateLimited =>
      if handle_rate_limit_error.1 then
        match fetch_tmdb_data resp fuel (attempt + 1) with
        | some p => some (p.1, handle_rate_limit_error.2 ++ p.2)
        | none => none
      else some (false, handle_rate_limit_error.2)
    | .notFound => some (false, [])
    | .ok => some (true, [])
    | .transportError => some (false, [])

/-! ### `main` (source lines 153-203)

`fetch_tmdb_data` is abstracted at this level by an oracle
`fetch : ℕ → Bool` saying whether the call for a given id returns a
truthy record, and the elapsed wall-clock time observed by the budget
check at loop index `idx` by an oracle `elapsed : ℕ → ℚ`. -/

/-- `remaining_ids = [id for id in all_ids if id > last_id]`
(source line 168). -/
def remaining_ids (last_id : ℕ) (all_ids : List ℕ) : List ℕ :=
  all_ids.filter fun id => decide (last_id < id)

/-- How the `for` loop over `remaining_ids` ends: normally, or through
the timeout branch while `movie_id` was about to be processed. -/
inductive LoopExit
  | finished
  | timeoutAt (movie_id : ℕ)
deriving DecidableEq

/-- Observable effects of the `for` loop: ids passed to
`fetch_tmdb_data`, ids written by `save_movie_cache`, and how the loop
ended. -/
structure LoopOut where
  fetched : List ℕ
  wrote : List ℕ
  exit : LoopExit
deriving DecidableEq

/-- The `for idx, movie_id in enumerate(remaining_ids)` loop
(source lines 176-195).  At each index the budget check
`time.time() - start_time > MAX_RUNTIME_SECS` runs first; on timeout the
loop stops before fetching the current id. -/
def process_ids (fetch : ℕ → Bool) (elapsed : ℕ → ℚ) :
    List ℕ → ℕ → LoopOut
  | [], _ => ⟨[], [], .finished⟩
  | movie_id :: rest, idx =>
    if (MAX_RUNTIME_SECS : ℚ) < elapsed idx then ⟨[], [], .timeoutAt movie_id⟩
    else
      let r := process_ids fetch elapsed rest (idx + 1)
      ⟨movie_id :: r.fetched,
       (if fetch movie_id then [movie_id] else []) ++ r.wrote,
       r.exit⟩

/-- The checkpoint dict passed to `save_state`, restricted to the two
keys the script writes. -/
structure SavedState where
  last_id : ℕ
  cached_count : ℕ
deriving DecidableEq

/-- Which exit path `main` took. -/
inductive Outcome
  | missingKey
  | crashed
  | drained
  | timeout
  | completed
deriving DecidableEq

/-- Observable behaviour of one `main()` run: the exit path, the ids
fetched and cached, the checkpoint written by `save_state` (if any), the
missing-credential message, and the process exit status (the script
never calls `sys.exit`, so every `return` from `main` exits the process
with status 0; an uncaught exception exits with status 1). -/
structure MainRun where
  outcome : Outcome
  fetched : List ℕ
  wrote : List ℕ
  saved : Option SavedState
  printedError : Bool
  exitCode : ℕ
deriving DecidableEq

/-- Python truthiness of `TMDB_API_KEY`: `os.environ.get` yields `None`
when unset, and `not key` is also true for the empty string. -/
def key_falsy : Option String → Bool
  | none => true
  | some s => s == ""

/-- `main()`: the credential guard, `load_state`, the `remaining_ids`
filter, the early `return` on an empty remainder, the `for` loop, and
the three exit paths.  In the timeout branch the source executes
`state["cached_count"] += cached_count` on the loaded dict, where the
local `cached_count` started from `state.get("cached_count", 0)`; if the
loaded object lacks that key the `+=` raises an uncaught `KeyError`. -/
def main_model (apiKey : Option String) (file : StateFileContent)
    (all_ids : List ℕ) (fetch : ℕ → Bool) (elapsed : ℕ → ℚ) : MainRun :=
  if key_falsy apiKey then ⟨.missingKey, [], [], none, true, 0⟩
  else
    match load_state file with
    | .error _ => ⟨.crashed, [], [], none, false, 1⟩
    | .ok st =>
      let last_id := st.last_id.getD 0
      let cached_count := st.cached_count.getD 0
      let rem := remaining_ids last_id all_ids
      if rem = [] then ⟨.drained, [], [], none, false, 0⟩
      else
        let r := process_ids fetch elapsed rem 0
        match r.exit with
        | .finished => ⟨.completed, r.fetched, r.wrote, some ⟨0, 0⟩, false, 0⟩
        | .timeoutAt mid =>
          match st.cached_count with
          | none => ⟨.crashed, r.fetched, r.wrote, none, false, 1⟩
          | some c0 =>
            ⟨.timeout, r.fetched, r.wrote,
             some ⟨mid, c0 + (cached_count + r.wrote.length)⟩, false, 0⟩

/-! ### `rate_limit_wait` (source lines 36-50)

The global `request_times` list and the clock are threaded explicitly.
One call takes the current history and the wall-clock time `current_time`
observed at entry, and returns the new history together with the time at
which the call proceeds (the timestamp appended on source line 50: the
entry time plus the sleep, if any). -/

/-- One call to `rate_limit_wait`. -/
def rate_limit_wait (request_times : List ℚ) (current_time : ℚ) :
    List ℚ × ℚ :=
  let kept := request_times.filter fun t =>
    decide (current_time - t < RATE_LIMIT_WINDOW)
  if RATE_LIMIT ≤ kept.length then
    let sleep_time := RATE_LIMIT_WINDOW - (current_time - kept.headI)
    let proceed :=
      if 0 < sleep_time then current_time + sleep_time else current_time
    (kept ++ [proceed], proceed)
  else
    (kept ++ [current_time], current_time)

/-- A sequence of calls to `rate_limit_wait` by the single-threaded
caller: `ds` lists the nonnegative delays between the previous call's
proceed time and the next call's entry time; the result lists the
proceed times in order. -/
def run_calls : List ℚ → List ℚ → ℚ → List ℚ
  | [], _, _ => []
  | d :: ds, hist, tPrev =>
    let r := rate_limit_wait hist (tPrev + d)
    r.2 :: run_calls ds r.1 r.2


/-! ## Helper lemmas -/

/-- `getD` through `drop`: also valid out of bounds. -/
lemma getD_drop_add {α : Type} (d : α) :
    ∀ (l : List α) (m n : ℕ), (l.drop m).getD n d = l.getD (m + n) d := by
  intro l
  induction l with
  | nil => intro m n; simp
  | cons a t ih =>
    intro m n
    cases m with
    | zero => simp
    | succ m =>
      rw [List.drop_succ_cons, ih m n]
      have h : m + 1 + n = (m + n) + 1 := by omega
      rw [h, List.getD_cons_succ]

/-- `getD` on an append, index inside the left part. -/
lemma getD_append_left {α : Type} (d : α) :
    ∀ (l l2 : List α) (n : ℕ), n < l.length → (l ++ l2).getD n d = l.getD n d := by
  intro l
  induction l with
  | nil => intro l2 n h; simp at h
  | cons a t ih =>
    intro l2 n h
    cases n with
    | zero => rfl
    | succ n =>
      simp only [List.cons_append, List.getD_cons_succ]
      exact ih l2 n (by simpa using h)

/-- `getD` on an append, index past the left part. -/
lemma getD_append_right {α : Type} (d : α) :
    ∀ (l l2 : List α) (n : ℕ), l.length ≤ n →
      (l ++ l2).getD n d = l2.getD (n - l.length) d := by
  intro l
  induction l with
  | nil => intro l2 n _; simp
  | cons a t ih =>
    intro l2 n h
    cases n with
    | zero => simp at h
    | succ n =>
      simp only [List.cons_append, List.getD_cons_succ, List.length_cons]
      rw [ih l2 n (by simpa using h)]
      congr 1
      omega

/-! ## Claims about `load_state`, projection, sharding, backoff -/

/-- Claim C7 (settled as a code bug): `load_state` maps an absent or
unreadable/unparsable checkpoint file to the fresh-start sentinel and a
JSON object to the stored state, but a file whose content is valid JSON
without being an object (for example the bare number `5`) raises an
uncaught `AttributeError` at the `data.get` call on source line 24,
which the `except (ValueError, IOError)` clause does not catch — a
fatal error, contradicting the claim that no possible file content is
fatal. -/
theorem load_state_behavior :
    load_state .absent = .ok ⟨some 0, some 0⟩ ∧
    load_state .unreadable = .ok ⟨some 0, some 0⟩ ∧
    (∀ li cc, load_state (.jsonObject li cc) = .ok ⟨li, cc⟩) ∧
    load_state .jsonNonObject = .error "AttributeError" :=
  ⟨rfl, rfl, fun _ _ => rfl, rfl⟩

/-- Claim C8: for every upstream document, `filter_movie_data` returns a
record whose keys are exactly the ten documented fields in order; every
pair in the result binds a documented key to `dict_get` of the source at
that key, which is the source value when the key is present and `none`
when it is absent; no other upstream key is retained. -/
theorem projection_exact (α : Type) (m : List (String × α)) :
    (filter_movie_data m).map Prod.fst = movie_fields ∧
    (∀ k v, (k, v) ∈ filter_movie_data m → v = dict_get m k) ∧
    (∀ k, dict_get m k = none ↔ ∀ v, (k, v) ∉ m) ∧
    (∀ k v, dict_get m k = some v → (k, v) ∈ m) := by
  refine ⟨rfl, ?_, ?_, ?_⟩
  · intro k v h
    simp only [filter_movie_data, List.mem_cons, List.not_mem_nil, or_false,
      Prod.mk.injEq] at h
    rcases h with h | h | h | h | h | h | h | h | h | h <;>
      rw [h.1, h.2]
  · intro k
    constructor
    · intro h v hv
      simp only [dict_get, Option.map_eq_none'] at h
      rw [List.find?_eq_none] at h
      have := h (k, v) hv
      simp at this
    · intro h
      simp only [dict_get, Option.map_eq_none']
      rw [List.find?_eq_none]
      intro p hp
      simp only [beq_iff_eq]
      intro hk
      exact h p.2 (by rw [← hk]; exact hp)
  · intro k v h
    simp only [dict_get] at h
    rcases Option.map_eq_some'.mp h with ⟨p, hfind, hsnd⟩
    have hp := List.find?_some hfind
    have hmem := List.mem_of_find?_eq_some hfind
    have hk : p.1 = k := by simpa using hp
    obtain ⟨p1, p2⟩ := p
    simp only at hk hsnd
    rw [← hk, ← hsnd]
    exact hmem

/-- Claim C8, witness: a concrete document with one documented and one
undocumented key. -/
theorem projection_exact_witness :
    ("title", some 37) ∈ filter_movie_data [("title", (37 : ℕ)), ("zzz", 5)] ∧
    some 37 = dict_get [("title", (37 : ℕ)), ("zzz", 5)] "title" :=
  ⟨by decide,
   (projection_exact ℕ [("title", 37), ("zzz", 5)]).2.1 "title" (some 37) (by decide)⟩

/-- Claim C9: the cache path of a record is `docs/<shard>/<id>.json`
where the shard is the first two characters of the decimal id string,
zero-padded on the left to width two; in particular id 7 is stored at
`docs/07/7.json` and id 1234 at `docs/12/1234.json`, and the shard
always has exactly two characters. -/
theorem shard_path_correct :
    cache_path 7 = "docs/07/7.json".data ∧
    cache_path 1234 = "docs/12/1234.json".data ∧
    ∀ n : ℕ, (shard_dir (str_of n)).length = 2 := by
  refine ⟨by decide, by decide, ?_⟩
  intro n
  simp only [shard_dir, zfill2]
  by_cases h : ((str_of n).take 2).length < 2
  · rw [if_pos h, List.length_append, List.length_replicate]
    omega
  · rw [if_neg h]
    have ht := List.length_take 2 (str_of n)
    omega

/-- Claim C2 (settled as a code bug): because the `return True` of
`handle_rate_limit_error` sits inside the `for` body, the function
always answers "retry" after a single 60-second sleep, so
`fetch_tmdb_data` never gives up on a rate-limited id: under perpetual
429 responses the recursion is still running after any number of
attempts, and with four 429s followed by a 404 it performs four retries
(the claim permits three) each preceded by a 60-second wait (the claim
requires 60, 120, 240). -/
theorem backoff_unbounded :
    (∀ fuel attempt,
      fetch_tmdb_data (fun _ => .rateLimited) fuel attempt = none) ∧
    fetch_tmdb_data (fun n => if n < 4 then .rateLimited else .notFound) 10 0 =
      some (false, [60, 60, 60, 60]) ∧
    handle_rate_limit_error = (true, [60]) := by
  refine ⟨?_, by decide, rfl⟩
  intro fuel
  induction fuel with
  | zero => intro a; rfl
  | succ f ih =>
    intro a
    simp only [fetch_tmdb_data, handle_rate_limit_error, handle_rate_limit_loop,
      if_true, ih (a + 1)]

/-! ## Claims about `main` -/

/-- Claim C6, counterexample: with the credential absent the run prints
the message and attempts no fetch and no cache write, but the process
exit status is 0 (a plain `return` from `main`), so the claimed
conjunction including a non-zero-equivalent termination status is false. -/
theorem missing_key_counterexample :
    ¬ ((main_model none .absent [5] (fun _ => true) (fun _ => 0)).printedError = true ∧
       (main_model none .absent [5] (fun _ => true) (fun _ => 0)).fetched = [] ∧
       (main_model none .absent [5] (fun _ => true) (fun _ => 0)).wrote = [] ∧
       (main_model none .absent [5] (fun _ => true) (fun _ => 0)).exitCode ≠ 0) := by
  decide

/-- Claim C6 as amended: when the API credential environment variable is
absent, `main` prints the user-visible message and returns before any
metadata fetch or cache write and before any checkpoint save, but the
process terminates with exit status 0, not a non-zero status. -/
theorem missing_key_behavior (file : StateFileContent) (all_ids : List ℕ)
    (fetch : ℕ → Bool) (elapsed : ℕ → ℚ) :
    main_model none file all_ids fetch elapsed =
      ⟨.missingKey, [], [], none, true, 0⟩ := rfl

/-- Claim C1 (settled as a code bug): with a fresh checkpoint, index
`[10, 20]`, every fetch succeeding, and the budget exceeded exactly when
the item at index 1 (id 20) is about to start, the timeout branch saves
`last_id = 20` — the id of the item that was never attempted — instead
of 10, the last fully processed id; a fresh run with that checkpoint
filters `id > 20`, fetches nothing and reports the index drained, so id
20 is never attempted by any run. -/
theorem timeout_checkpoint_skips_unattempted :
    main_model (some "k") .absent [10, 20] (fun _ => true)
        (fun idx => if idx = 0 then 0 else 601) =
      ⟨.timeout, [10], [10], some ⟨20, 1⟩, false, 0⟩ ∧
    main_model (some "k") (.jsonObject (some 20) (some 1)) [10, 20]
        (fun _ => true) (fun _ => 0) =
      ⟨.drained, [], [], none, false, 0⟩ := by
  exact ⟨by decide, by decide⟩

/-- Claim C10: starting from a checkpoint object whose stored
`cached_count` is `c0`, the in-memory counter is initialised to `c0` and
the timeout branch executes `state["cached_count"] += cached_count` on
the still-unmodified loaded dict, so the persisted count is
`c0 + (c0 + k) = 2 * c0 + k` where `k` is the number of records cached
this run — not `c0 + k`. -/
theorem timeout_count_double (key : String) (hk : key ≠ "")
    (lid c0 : ℕ) (all_ids : List ℕ) (fetch : ℕ → Bool) (elapsed : ℕ → ℚ)
    (mid : ℕ)
    (hexit : (process_ids fetch elapsed (remaining_ids lid all_ids) 0).exit =
      .timeoutAt mid) :
    (main_model (some key) (.jsonObject (some lid) (some c0)) all_ids fetch
        elapsed).saved =
      some ⟨mid, 2 * c0 +
        (process_ids fetch elapsed (remaining_ids lid all_ids) 0).wrote.length⟩ := by
  have hrem : ¬ (remaining_ids lid all_ids = []) := by
    intro h
    rw [h] at hexit
    simp [process_ids] at hexit
  have hkf : ¬ (key_falsy (some key) = true) := by simp [key_falsy, hk]
  simp only [main_model, load_state, if_neg hkf, Option.getD_some, if_neg hrem,
    hexit]
  have harith : c0 + (c0 +
      (process_ids fetch elapsed (remaining_ids lid all_ids) 0).wrote.length) =
      2 * c0 +
      (process_ids fetch elapsed (remaining_ids lid all_ids) 0).wrote.length := by
    omega
  rw [harith]

/-- Claim C10, witness: stored count 3, one new record cached before the
timeout, persisted count 7 = 2 * 3 + 1. -/
theorem timeout_count_double_witness :
    (main_model (some "k") (.jsonObject (some 0) (some 3)) [10, 20]
        (fun _ => true) (fun idx => if idx = 0 then 0 else 601)).saved =
      some ⟨20, 7⟩ :=
  (timeout_count_double "k" (by decide) 0 3 [10, 20] (fun _ => true)
      (fun idx => if idx = 0 then 0 else 601) 20 (by decide)).trans (by decide)

/-- The `for` loop when the wall-clock budget is never exceeded: every
remaining id is fetched, the ids with truthy responses are cached, and
the loop finishes normally. -/
lemma process_ids_no_timeout (fetch : ℕ → Bool) (elapsed : ℕ → ℚ)
    (hfast : ∀ idx, elapsed idx ≤ (MAX_RUNTIME_SECS : ℚ)) :
    ∀ (l : List ℕ) (idx : ℕ),
      process_ids fetch elapsed l idx = ⟨l, l.filter fetch, .finished⟩ := by
  intro l
  induction l with
  | nil => intro idx; rfl
  | cons a rest ih =>
    intro idx
    simp only [process_ids, if_neg (not_lt.mpr (hfast idx)), ih (idx + 1)]
    by_cases h : fetch a <;> simp [List.filter_cons, h]

/-- Resuming with the sentinel cursor 0 keeps every positive id. -/
lemma remaining_ids_zero (ids : List ℕ) (hpos : ∀ i ∈ ids, 0 < i) :
    remaining_ids 0 ids = ids :=
  List.filter_eq_self.mpr fun a ha => by simpa using hpos a ha

/-- Claim C3, counterexample: over the index `[1, 2]` with all fetches
succeeding and no timeout, a complete run persists the sentinel
checkpoint `⟨0, 0⟩`; a second run loading that checkpoint over the
unchanged index fetches both ids again and does not terminate in the
drained state, contradicting the claimed zero fetches and `Drained`
termination. -/
theorem rerun_counterexample :
    (main_model (some "k") .absent [1, 2] (fun _ => true) (fun _ => 0)).outcome =
      .completed ∧
    (main_model (some "k") .absent [1, 2] (fun _ => true) (fun _ => 0)).saved =
      some ⟨0, 0⟩ ∧
    (main_model (some "k") (.jsonObject (some 0) (some 0)) [1, 2]
        (fun _ => true) (fun _ => 0)).fetched = [1, 2] ∧
    (main_model (some "k") (.jsonObject (some 0) (some 0)) [1, 2]
        (fun _ => true) (fun _ => 0)).outcome ≠ .drained := by
  decide

/-- Claim C3 as amended: a completed run persists the sentinel
checkpoint `⟨0, 0⟩` (`# Reset for next full run`), so running the loop
again with that checkpoint over an unchanged nonempty index of positive
ids performs one metadata fetch per index item — not zero — and
terminates in the completed state rather than the drained state. -/
theorem rerun_refetches_everything (key : String) (hk : key ≠ "")
    (ids : List ℕ) (fetch : ℕ → Bool) (elapsed : ℕ → ℚ)
    (hpos : ∀ i ∈ ids, 0 < i) (hne : ids ≠ [])
    (hfast : ∀ idx, elapsed idx ≤ (MAX_RUNTIME_SECS : ℚ)) :
    (main_model (some key) .absent ids fetch elapsed).outcome = .completed ∧
    (main_model (some key) .absent ids fetch elapsed).saved = some ⟨0, 0⟩ ∧
    (main_model (some key) (.jsonObject (some 0) (some 0)) ids fetch
        elapsed).fetched = ids ∧
    (main_model (some key) (.jsonObject (some 0) (some 0)) ids fetch
        elapsed).outcome = .completed := by
  have hkf : ¬ (key_falsy (some key) = true) := by simp [key_falsy, hk]
  have hrem : remaining_ids 0 ids = ids := remaining_ids_zero ids hpos
  have hproc := process_ids_no_timeout fetch elapsed hfast ids 0
  simp only [main_model, load_state, if_neg hkf, Option.getD_some, hrem,
    if_neg hne, hproc]
  exact ⟨trivial, trivial, trivial, trivial⟩

/-- Claim C3 as amended, witness: the concrete two-item index. -/
theorem rerun_refetches_everything_witness :
    (main_model (some "k") .absent [1, 2] (fun _ => true)
        (fun _ => (0 : ℚ))).outcome = .completed ∧
    (main_model (some "k") .absent [1, 2] (fun _ => true)
        (fun _ => (0 : ℚ))).saved = some ⟨0, 0⟩ ∧
    (main_model (some "k") (.jsonObject (some 0) (some 0)) [1, 2]
        (fun _ => true) (fun _ => (0 : ℚ))).fetched = [1, 2] ∧
    (main_model (some "k") (.jsonObject (some 0) (some 0)) [1, 2]
        (fun _ => true) (fun _ => (0 : ℚ))).outcome = .completed :=
  rerun_refetches_everything "k" (by decide) [1, 2] (fun _ => true)
    (fun _ => 0) (by decide) (by decide)
    (fun _ => by norm_num [MAX_RUNTIME_SECS])

/-! ## Claim C5: the resume filter on a sorted de-duplicated index -/

/-- In a strictly sorted list, every element of `take (k+1)` is at most
the element at index `k`. -/
lemma sorted_take_le :
    ∀ (l : List ℕ), l.Sorted (· < ·) → ∀ k, k < l.length →
      ∀ a ∈ l.take (k + 1), a ≤ l.getD k 0 := by
  intro l
  induction l with
  | nil => intro _ k hk; simp at hk
  | cons x xs ih =>
    intro hs k hk a ha
    rcases List.sorted_cons.mp hs with ⟨hx, hxs⟩
    cases k with
    | zero =>
      simp only [List.take_succ_cons, List.take_zero, List.mem_singleton] at ha
      simp [ha]
    | succ k =>
      rw [List.take_succ_cons] at ha
      rw [List.getD_cons_succ]
      rcases List.mem_cons.mp ha with rfl | ha2
      · have hklt : k < xs.length := by simpa using hk
        have hmem : xs.getD k 0 ∈ xs := by
          rw [List.getD_eq_getElem xs 0 hklt]
          exact List.getElem_mem hklt
        exact le_of_lt (hx _ hmem)
      · exact ih hxs k (by simpa using hk) a ha2

/-- In a strictly sorted list, every element of `drop (k+1)` exceeds
the element at index `k`. -/
lemma sorted_drop_gt :
    ∀ (l : List ℕ), l.Sorted (· < ·) → ∀ k, k < l.length →
      ∀ a ∈ l.drop (k + 1), l.getD k 0 < a := by
  intro l
  induction l with
  | nil => intro _ k hk; simp at hk
  | cons x xs ih =>
    intro hs k hk a ha
    rcases List.sorted_cons.mp hs with ⟨hx, hxs⟩
    cases k with
    | zero =>
      rw [List.drop_succ_cons, List.drop_zero] at ha
      exact hx a ha
    | succ k =>
      rw [List.drop_succ_cons] at ha
      rw [List.getD_cons_succ]
      exact ih hxs k (by simpa using hk) a ha

/-- Claim C5: if the checkpoint cursor is the id at index `k - 1` of a
strictly sorted (sorted, de-duplicated) index `l` with `k < l.length`,
the resume filter returns exactly `l.drop k` — the items `k..n-1` in
their original ascending order; moreover every id at most the cursor is
excluded and every id above the cursor is kept. -/
theorem resume_filter_exact (l : List ℕ) (hs : l.Sorted (· < ·)) (k : ℕ)
    (hk1 : 1 ≤ k) (hkn : k < l.length) :
    remaining_ids (l.getD (k - 1) 0) l = l.drop k ∧
    (∀ id ∈ l, id ≤ l.getD (k - 1) 0 →
      id ∉ remaining_ids (l.getD (k - 1) 0) l) ∧
    (∀ id ∈ l, l.getD (k - 1) 0 < id →
      id ∈ remaining_ids (l.getD (k - 1) 0) l) := by
  have hk1' : k - 1 + 1 = k := by omega
  have hkd : k - 1 < l.length := by omega
  refine ⟨?_, ?_, ?_⟩
  · have h1 : (l.take k).filter (fun id => decide (l.getD (k - 1) 0 < id)) = [] := by
      rw [List.filter_eq_nil_iff]
      intro a ha
      have hle : a ≤ l.getD (k - 1) 0 := by
        refine sorted_take_le l hs (k - 1) hkd a ?_
        rwa [hk1']
      simp only [decide_eq_true_eq, not_lt]
      exact hle
    have h2 : (l.drop k).filter (fun id => decide (l.getD (k - 1) 0 < id)) =
        l.drop k := by
      rw [List.filter_eq_self]
      intro a ha
      have hgt : l.getD (k - 1) 0 < a := by
        refine sorted_drop_gt l hs (k - 1) hkd a ?_
        rwa [hk1']
      simpa using hgt
    calc remaining_ids (l.getD (k - 1) 0) l
        = ((l.take k ++ l.drop k).filter fun id => decide (l.getD (k - 1) 0 < id)) := by
          rw [List.take_append_drop]
          rfl
      _ = l.drop k := by rw [List.filter_append, h1, h2, List.nil_append]
  · intro id _ hle hmem
    have := (List.mem_filter.mp hmem).2
    simp only [decide_eq_true_eq] at this
    omega
  · intro id hid hgt
    exact List.mem_filter.mpr ⟨hid, by simpa using hgt⟩

/-- Claim C5, witness: index `[3, 5, 9]`, one item processed, cursor 3. -/
theorem resume_filter_exact_witness :
    remaining_ids (([3, 5, 9] : List ℕ).getD 0 0) [3, 5, 9] =
      ([3, 5, 9] : List ℕ).drop 1 :=
  (resume_filter_exact [3, 5, 9] (by decide) 1 (by decide) (by decide)).1

/-! ## Claim C4: the sliding-window rate limiter

The verification works over arbitrary single-threaded call sequences:
the entry time of each call is the previous call's proceed time plus an
arbitrary nonnegative delay (clocks never run backwards). -/

/-- The timestamps retained by the filter on source line 42. -/
def window_kept (hist : List ℚ) (c : ℚ) : List ℚ :=
  hist.filter fun t => decide (c - t < RATE_LIMIT_WINDOW)

/-- Branch of `rate_limit_wait` strictly below the limit: no sleep, the
call proceeds at its entry time. -/
lemma rate_limit_wait_of_lt (hist : List ℚ) (c : ℚ)
    (h : (window_kept hist c).length < RATE_LIMIT) :
    rate_limit_wait hist c = (window_kept hist c ++ [c], c) := by
  unfold window_kept at h ⊢
  simp only [rate_limit_wait]
  rw [if_neg (not_le.mpr h)]

/-- Branch of `rate_limit_wait` at the limit, with the oldest retained
timestamp still strictly inside the window: the call sleeps until that
timestamp leaves the window and proceeds exactly then. -/
lemma rate_limit_wait_of_full (hist : List ℚ) (c : ℚ)
    (h : RATE_LIMIT ≤ (window_kept hist c).length)
    (hh : c - (window_kept hist c).headI < RATE_LIMIT_WINDOW) :
    rate_limit_wait hist c =
      (window_kept hist c ++ [(window_kept hist c).headI + RATE_LIMIT_WINDOW],
        (window_kept hist c).headI + RATE_LIMIT_WINDOW) := by
  unfold window_kept at h hh ⊢
  simp only [rate_limit_wait]
  rw [if_pos h]
  have hpos : (0 : ℚ) < RATE_LIMIT_WINDOW -
      (c - (hist.filter fun t => decide (c - t < RATE_LIMIT_WINDOW)).headI) := by
    linarith
  rw [if_pos hpos]
  have harr : c + (RATE_LIMIT_WINDOW -
      (c - (hist.filter fun t => decide (c - t < RATE_LIMIT_WINDOW)).headI)) =
      (hist.filter fun t => decide (c - t < RATE_LIMIT_WINDOW)).headI +
        RATE_LIMIT_WINDOW := by
    ring
  rw [harr]

/-- Applied to a nondecreasing timestamp list, the window filter keeps
exactly a suffix, and every dropped timestamp had already left the
window at the filtering time. -/
lemma window_kept_drop (c : ℚ) :
    ∀ l : List ℚ, l.Sorted (· ≤ ·) →
      ∃ j, j ≤ l.length ∧ window_kept l c = l.drop j ∧
        ∀ i, i < j → RATE_LIMIT_WINDOW ≤ c - l.getD i 0 := by
  intro l
  induction l with
  | nil =>
    intro _
    exact ⟨0, Nat.le_refl 0, rfl, fun i hi => absurd hi (Nat.not_lt_zero i)⟩
  | cons a t ih =>
    intro hs
    rcases List.sorted_cons.mp hs with ⟨ha, ht⟩
    by_cases hp : c - a < RATE_LIMIT_WINDOW
    · refine ⟨0, Nat.zero_le _, ?_, fun i hi => absurd hi (Nat.not_lt_zero i)⟩
      rw [List.drop_zero]
      unfold window_kept
      rw [List.filter_cons_of_pos (by simpa using hp)]
      congr 1
      rw [List.filter_eq_self]
      intro b hb
      have hab := ha b hb
      simp only [decide_eq_true_eq]
      linarith
    · obtain ⟨j, hj, heq, hd⟩ := ih ht
      refine ⟨j + 1, by simp only [List.length_cons]; omega, ?_, ?_⟩
      · unfold window_kept at heq ⊢
        rw [List.filter_cons_of_neg (by simpa using hp), heq,
          List.drop_succ_cons]
      · intro i hi
        cases i with
        | zero =>
          have h0 : RATE_LIMIT_WINDOW ≤ c - a := not_lt.mp hp
          simpa using h0
        | succ i =>
          rw [List.getD_cons_succ]
          exact hd i (by omega)

/-- A timestamp list of positive length is a cons. -/
lemma exists_cons_of_len_pos (l : List ℚ) (h : 0 < l.length) :
    ∃ x xs, l = x :: xs := by
  cases l with
  | nil => simp at h
  | cons x xs => exact ⟨x, xs, rfl⟩

/-- Invariant threaded through a run of `rate_limit_wait` calls: `acc`
is the chronological list of all proceed times so far, `tPrev` the last
of them (or the start time), and `hist` the surviving `request_times`.
`hist` is the suffix of `acc` past some cut `m`; timestamps before the
cut have left the window (`+ RATE_LIMIT_WINDOW ≤ tPrev`); the history
never exceeds `RATE_LIMIT + 1` entries, and when it reaches that bound
its head has already left the window; and any two proceed times
`RATE_LIMIT` positions apart differ by at least the window. -/
structure RLInv (acc hist : List ℚ) (tPrev : ℚ) : Prop where
  hist_eq : ∃ m, m ≤ acc.length ∧ hist = acc.drop m ∧
    ∀ i, i < m → acc.getD i 0 + RATE_LIMIT_WINDOW ≤ tPrev
  sorted : acc.Sorted (· ≤ ·)
  le_prev : ∀ t ∈ acc, t ≤ tPrev
  len_le : hist.length ≤ RATE_LIMIT + 1
  full_head : hist.length = RATE_LIMIT + 1 →
    hist.headI + RATE_LIMIT_WINDOW ≤ tPrev
  gaps : ∀ i, i + RATE_LIMIT < acc.length →
    acc.getD i 0 + RATE_LIMIT_WINDOW ≤ acc.getD (i + RATE_LIMIT) 0

/-- One `rate_limit_wait` call preserves the invariant, for any
nonnegative inter-call delay `d`. -/
lemma rate_limit_wait_step (acc hist : List ℚ) (tPrev d : ℚ) (hd : 0 ≤ d)
    (inv : RLInv acc hist tPrev) :
    RLInv (acc ++ [(rate_limit_wait hist (tPrev + d)).2])
      (rate_limit_wait hist (tPrev + d)).1
      (rate_limit_wait hist (tPrev + d)).2 := by
  obtain ⟨m, hm, hhist, hdropped⟩ := inv.hist_eq
  set tNow := tPrev + d with htNow_def
  have htNow : tPrev ≤ tNow := by rw [htNow_def]; linarith
  have acc_pw : acc.Pairwise (· ≤ ·) := inv.sorted
  have hist_sorted : hist.Sorted (· ≤ ·) := by
    rw [hhist]
    exact acc_pw.sublist (List.drop_sublist m acc)
  obtain ⟨j, hjle, hfil, hjd⟩ := window_kept_drop tNow hist hist_sorted
  have hist_len : hist.length = acc.length - m := by
    rw [hhist, List.length_drop]
  have hker : window_kept hist tNow = acc.drop (m + j) := by
    rw [hfil, hhist, List.drop_drop]
  have hmple : m + j ≤ acc.length := by omega
  have hkept_len : (window_kept hist tNow).length = acc.length - (m + j) := by
    rw [hker, List.length_drop]
  have hdropped' : ∀ i, i < m + j →
      acc.getD i 0 + RATE_LIMIT_WINDOW ≤ tNow := by
    intro i hi
    by_cases him : i < m
    · have := hdropped i him
      linarith
    · have hi2 : i - m < j := by omega
      have hw := hjd (i - m) hi2
      rw [hhist, getD_drop_add] at hw
      have heqi : m + (i - m) = i := by omega
      rw [heqi] at hw
      linarith
  have hL : 0 < RATE_LIMIT := by decide
  by_cases hc : RATE_LIMIT ≤ (window_kept hist tNow).length
  · have hlenle : (window_kept hist tNow).length ≤ RATE_LIMIT := by
      by_contra hgt
      push_neg at hgt
      have h1 : (window_kept hist tNow).length ≤ hist.length := by
        unfold window_kept
        exact List.length_filter_le _ _
      have h2 := inv.len_le
      have h3 : (window_kept hist tNow).length = RATE_LIMIT + 1 := by omega
      have h4 : hist.length = RATE_LIMIT + 1 := by omega
      have hj0 : j = 0 := by
        have h5 : (window_kept hist tNow).length = hist.length - j := by
          rw [hfil, List.length_drop]
        omega
      have hkh : window_kept hist tNow = hist := by
        rw [hfil, hj0, List.drop_zero]
      have hfh := inv.full_head h4
      obtain ⟨x, xs, hxs⟩ := exists_cons_of_len_pos (window_kept hist tNow)
        (by omega)
      have hxmem : x ∈ window_kept hist tNow := by
        rw [hxs]; exact List.mem_cons_self x xs
      have hxp : tNow - x < RATE_LIMIT_WINDOW := by
        have hxmem' : x ∈ hist.filter
            (fun t => decide (tNow - t < RATE_LIMIT_WINDOW)) := hxmem
        simpa using List.of_mem_filter hxmem'
      have hhead : hist.headI = x := by rw [← hkh, hxs]; rfl
      rw [hhead] at hfh
      linarith
    have hlen : (window_kept hist tNow).length = RATE_LIMIT :=
      le_antisymm hlenle hc
    obtain ⟨x, xs, hxs⟩ := exists_cons_of_len_pos (window_kept hist tNow)
      (by omega)
    have hxmem : x ∈ window_kept hist tNow := by
      rw [hxs]; exact List.mem_cons_self x xs
    have hxwin : tNow - x < RATE_LIMIT_WINDOW := by
      have hxmem' : x ∈ hist.filter
          (fun t => decide (tNow - t < RATE_LIMIT_WINDOW)) := hxmem
      simpa using List.of_mem_filter hxmem'
    have hhx : (window_kept hist tNow).headI = x := by rw [hxs]; rfl
    have heq := rate_limit_wait_of_full hist tNow hc (by rwa [hhx])
    rw [hhx] at heq
    have hs_ge : tNow ≤ x + RATE_LIMIT_WINDOW := by linarith
    have hxval : x = acc.getD (m + j) 0 := by
      have h0 : (window_kept hist tNow).getD 0 0 = acc.getD (m + j + 0) 0 := by
        rw [hker, getD_drop_add]
      rw [hxs] at h0
      simpa using h0
    rw [heq]
    show RLInv (acc ++ [x + RATE_LIMIT_WINDOW])
      (window_kept hist tNow ++ [x + RATE_LIMIT_WINDOW])
      (x + RATE_LIMIT_WINDOW)
    refine ⟨?_, ?_, ?_, ?_, ?_, ?_⟩
    · refine ⟨m + j, by rw [List.length_append, List.length_singleton]; omega,
        ?_, ?_⟩
      · rw [List.drop_append_eq_append_drop, Nat.sub_eq_zero_of_le hmple,
          List.drop_zero, hker]
      · intro i hi
        rw [getD_append_left 0 acc _ i (by omega)]
        have := hdropped' i hi
        linarith
    · refine List.pairwise_append.mpr ⟨inv.sorted, List.pairwise_singleton _ _, ?_⟩
      intro a ha b hb
      rw [List.mem_singleton] at hb
      subst hb
      have h1 := inv.le_prev a ha
      linarith
    · intro t ht
      rcases List.mem_append.mp ht with h | h
      · have := inv.le_prev t h
        linarith
      · rw [List.mem_singleton] at h
        exact le_of_eq h
    · rw [List.length_append, hlen, List.length_singleton]
    · intro _
      have hh2 : (window_kept hist tNow ++
          [x + RATE_LIMIT_WINDOW]).headI = x := by
        rw [hxs]; rfl
      rw [hh2]
    · intro i hi
      rw [List.length_append, List.length_singleton] at hi
      by_cases hlt : i + RATE_LIMIT < acc.length
      · rw [getD_append_left 0 acc _ i (by omega),
          getD_append_left 0 acc _ (i + RATE_LIMIT) hlt]
        exact inv.gaps i hlt
      · have hieq : i + RATE_LIMIT = acc.length := by omega
        rw [getD_append_left 0 acc _ i (by omega),
          getD_append_right 0 acc _ (i + RATE_LIMIT) (by omega), hieq,
          Nat.sub_self]
        have hie : i = m + j := by omega
        rw [hie, ← hxval]
        exact le_of_eq rfl
  · push_neg at hc
    have heq := rate_limit_wait_of_lt hist tNow hc
    rw [heq]
    show RLInv (acc ++ [tNow]) (window_kept hist tNow ++ [tNow]) tNow
    refine ⟨?_, ?_, ?_, ?_, ?_, ?_⟩
    · refine ⟨m + j, by rw [List.length_append, List.length_singleton]; omega,
        ?_, ?_⟩
      · rw [List.drop_append_eq_append_drop, Nat.sub_eq_zero_of_le hmple,
          List.drop_zero, hker]
      · intro i hi
        rw [getD_append_left 0 acc _ i (by omega)]
        exact hdropped' i hi
    · refine List.pairwise_append.mpr ⟨inv.sorted, List.pairwise_singleton _ _, ?_⟩
      intro a ha b hb
      rw [List.mem_singleton] at hb
      subst hb
      have h1 := inv.le_prev a ha
      linarith
    · intro t ht
      rcases List.mem_append.mp ht with h | h
      · have := inv.le_prev t h
        linarith
      · rw [List.mem_singleton] at h
        exact le_of_eq h
    · rw [List.length_append, List.length_singleton]
      omega
    · intro hlen1
      rw [List.length_append, List.length_singleton] at hlen1
      exact absurd hlen1 (by omega)
    · intro i hi
      rw [List.length_append, List.length_singleton] at hi
      by_cases hlt : i + RATE_LIMIT < acc.length
      · rw [getD_append_left 0 acc _ i (by omega),
          getD_append_left 0 acc _ (i + RATE_LIMIT) hlt]
        exact inv.gaps i hlt
      · have hieq : i + RATE_LIMIT = acc.length := by omega
        have hilt : i < m + j := by omega
        have hdi := hdropped' i hilt
        rw [getD_append_left 0 acc _ i (by omega),
          getD_append_right 0 acc _ (i + RATE_LIMIT) (by omega), hieq,
          Nat.sub_self]
        exact hdi

/-- The invariant holds before any call. -/
lemma rlinv_init (t0 : ℚ) : RLInv [] [] t0 := by
  refine ⟨⟨0, Nat.le_refl 0, rfl, fun i hi => absurd hi (Nat.not_lt_zero i)⟩,
    List.Pairwise.nil, ?_, ?_, ?_, ?_⟩
  · intro t ht
    exact absurd ht (List.not_mem_nil t)
  · exact by decide
  · intro h
    exact absurd h (by decide)
  · intro i hi
    simp at hi

/-- The gap property extends over any run continuing from an invariant
state. -/
lemma run_calls_gaps (ds : List ℚ) :
    ∀ (acc hist : List ℚ) (tPrev : ℚ),
      (∀ x ∈ ds, 0 ≤ x) → RLInv acc hist tPrev →
      ∀ i, i + RATE_LIMIT < (acc ++ run_calls ds hist tPrev).length →
        (acc ++ run_calls ds hist tPrev).getD i 0 + RATE_LIMIT_WINDOW ≤
          (acc ++ run_calls ds hist tPrev).getD (i + RATE_LIMIT) 0 := by
  induction ds with
  | nil =>
    intro acc hist tPrev _ inv i hi
    simp only [run_calls, List.append_nil] at hi ⊢
    exact inv.gaps i hi
  | cons d ds ih =>
    intro acc hist tPrev hds inv i hi
    have hd0 : 0 ≤ d := hds d (List.mem_cons_self d ds)
    have hds' : ∀ x ∈ ds, 0 ≤ x := fun x hx => hds x (List.mem_cons_of_mem d hx)
    have step := rate_limit_wait_step acc hist tPrev d hd0 inv
    simp only [run_calls] at hi ⊢
    rw [List.append_cons] at hi ⊢
    exact ih _ _ _ hds' step i hi

/-- A run makes one proceed time per call. -/
lemma run_calls_length (ds : List ℚ) :
    ∀ (hist : List ℚ) (t : ℚ), (run_calls ds hist t).length = ds.length := by
  induction ds with
  | nil => intro hist t; rfl
  | cons d ds ih =>
    intro hist t
    simp only [run_calls, List.length_cons, ih]

/-- Claim C4: over any single-threaded sequence of `rate_limit_wait`
calls (nonnegative delays between a call's proceed time and the next
call's entry), any two proceed times `RATE_LIMIT` positions apart
differ by at least `RATE_LIMIT_WINDOW`.  With `i = 0` this is the
claim's first half — the `(L+1)`-th call proceeds at least `W` seconds
after the 1st; for arbitrary `i` it bounds every window: no
`RATE_LIMIT + 1` calls proceed within one `RATE_LIMIT_WINDOW`. -/
theorem rate_limiter_window_bound (ds : List ℚ) (t0 : ℚ)
    (hds : ∀ x ∈ ds, 0 ≤ x) (i : ℕ)
    (hi : i + RATE_LIMIT < (run_calls ds [] t0).length) :
    (run_calls ds [] t0).getD i 0 + RATE_LIMIT_WINDOW ≤
      (run_calls ds [] t0).getD (i + RATE_LIMIT) 0 := by
  have h := run_calls_gaps ds [] [] t0 hds (rlinv_init t0) i (by simpa using hi)
  simpa using h

/-- Claim C4, witness: 51 back-to-back calls starting at time 0. -/
theorem rate_limiter_window_bound_witness :
    (run_calls (List.replicate 51 (0 : ℚ)) [] 0).getD 0 0 + RATE_LIMIT_WINDOW ≤
      (run_calls (List.replicate 51 (0 : ℚ)) [] 0).getD (0 + RATE_LIMIT) 0 :=
  rate_limiter_window_bound (List.replicate 51 0) 0
    (by intro x hx; rw [List.eq_of_mem_replicate hx])
    0 (by rw [run_calls_length, List.length_replicate]; decide)

end TmdbCache
